import Mathlib

/-!
Verification of the pass-to-Proton-Pass migration tool (`migrate.py`).

Strings are embedded as `List Char`. Python `str.strip()` is `pyStrip`
(ASCII whitespace), `str.split('\n')` is `splitLines`,
`s.split(':', 1)[1]` is `afterFirstColon`, and `str.lower()` is modelled
per character by `Char.toLower` (the classification key words are ASCII).
-/

namespace Pass2Proton

abbrev Str := List Char

def str (s : String) : Str := s.data

/-- Whitespace characters removed by Python `str.strip()` (ASCII range). -/
def isPySpace (c : Char) : Bool :=
  c = ' ' || c = '\t' || c = '\n' || c = '\r' || c = Char.ofNat 11 || c = Char.ofNat 12

/-- Python `str.strip()`: drop leading and trailing whitespace. -/
def pyStrip (l : Str) : Str :=
  ((l.dropWhile isPySpace).reverse.dropWhile isPySpace).reverse

/-- Python `raw.split('\n')`: split on every newline; never returns `[]`. -/
def splitLines : Str → List Str
  | [] => [[]]
  | c :: cs =>
    if c = '\n' then [] :: splitLines cs
    else
      match splitLines cs with
      | [] => [[c]]
      | l :: ls => (c :: l) :: ls

/-- Python `line.split(':', 1)[1]`: everything after the first colon
(empty when no colon occurs). -/
def afterFirstColon (l : Str) : Str :=
  (l.dropWhile (fun c => c ≠ ':')).tail

/-- The key words checked by `process_pass` for the username branch. -/
def userKeys : List Str := [str "username:", str "user:", str "login:"]

/-- Python `any(line.lower().startswith(p) for p in ['username:', 'user:', 'login:'])`. -/
def isUserLine (l : Str) : Bool :=
  userKeys.any (fun p => p.isPrefixOf (l.map Char.toLower))

/-- The classifier state accumulated over the lines after the first:
`email`, `username` and `note_lines` of `process_pass`. -/
structure LineState where
  email : Option Str
  username : Option Str
  noteLines : List Str
deriving Repr, DecidableEq

/-- One iteration of the `for line in lines[1:]` loop of `process_pass`. -/
def stepLine (st : LineState) (rawLine : Str) : LineState :=
  let line := pyStrip rawLine
  if line = [] then st
  else if line.contains '@' then
    if line.contains ':' then { st with email := some (pyStrip (afterFirstColon line)) }
    else { st with email := some line }
  else if isUserLine line then { st with username := some (pyStrip (afterFirstColon line)) }
  else { st with noteLines := st.noteLines ++ [line] }

/-- The `PassContent` dataclass (`url` and `totp` are never set by the
classifier; `vault` is not a field and is added only when writing). -/
structure PassContent where
  name : Str
  password : Str
  url : Option Str
  email : Option Str
  username : Option Str
  note : Option Str
  totp : Option Str
deriving Repr, DecidableEq

/-- Python `sep.join(xs)`. -/
def joinSep (sep : Str) : List Str → Str
  | [] => []
  | [x] => x
  | x :: y :: xs => x ++ sep ++ joinSep sep (y :: xs)

/-- The classifier `process_pass(entry_name, raw_pass_content)`. -/
def process_pass (entry_name raw : Str) : PassContent :=
  if raw = [] then
    { name := entry_name, password := [], url := none, email := none,
      username := none, note := none, totp := none }
  else
    let lines := splitLines raw
    let password := pyStrip (lines.headD [])
    let st := (lines.drop 1).foldl stepLine ⟨none, none, []⟩
    let note := if st.noteLines = [] then none else some (joinSep (str " | ") st.noteLines)
    { name := entry_name, password := password, url := none, email := st.email,
      username := st.username, note := note, totp := none }

/-- Joining path components with the path separator, as `os.path.join` /
`os.path.relpath` produce for a file reached by `os.walk` below the root. -/
def joinPath : List Str → Str
  | [] => []
  | [p] => p
  | p :: q :: r => p ++ ['/'] ++ joinPath (q :: r)

/-- Python `os.path.relpath(path, pass_store_path)[:-4]` of `process_all_entries`,
with the file described by its path components relative to the store root. -/
def gpgEntryName (parts : List Str) : Str :=
  let p := joinPath parts
  p.take (p.length - 4)

/-- The orchestration loop of `process_all_entries`, with the enumerated
entries abstracted to pairs of an identifier and the result of `read_pass`
(`none` = failure, `some s` = success printing `s` after stripping).
`count_gpg_files` counts exactly the files the loop visits, so the
returned total is the number of enumerated entries.  The guard
`if raw_pass_content:` is Python truthiness: `none` and the empty string
both fail it. -/
def entryStep (acc : List PassContent × Nat) (e : Str × Option Str) :
    List PassContent × Nat :=
  match e.2 with
  | some raw => if raw = [] then acc else (acc.1 ++ [process_pass e.1 raw], acc.2 + 1)
  | none => acc

def process_all_entries (entries : List (Str × Option Str)) :
    List PassContent × Nat × Nat :=
  let folded := entries.foldl entryStep ([], 0)
  (folded.1, folded.2, entries.length)

/-- An entry whose `read_pass` succeeded with non-empty content (the
condition under which the loop of `process_all_entries` produces a record). -/
def readOk (e : Str × Option Str) : Bool :=
  !(e.2.getD []).isEmpty

/-- The double-quote character of the CSV dialect. -/
def quoteChar : Char := Char.ofNat 34

/-- A CSV cell for an optional field: `csv.DictWriter` writes `None` as
the empty string. -/
def optCell : Option Str → Str
  | none => []
  | some s => s

/-- The row written for one record: `asdict(r)` plus `vault = None`,
reordered by `csv.DictWriter` into the `PROTON_HEADERS` column order. -/
def toRow (r : PassContent) : List Str :=
  [r.name, optCell r.url, optCell r.email, optCell r.username, r.password,
   optCell r.note, optCell r.totp, optCell none]

/-- The `PROTON_HEADERS` column list. -/
def protonHeaders : List Str :=
  [str "name", str "url", str "email", str "username", str "password",
   str "note", str "totp", str "vault"]

/-- Python `csv` QUOTE_MINIMAL: a field is quoted iff it contains the delimiter,
the quote character, or a line-terminator character. -/
def needsQuote (f : Str) : Bool :=
  f.contains ',' || f.contains quoteChar || f.contains '\r' || f.contains '\n'

/-- Double every quote character (the `csv` writer's escaping). -/
def escapeQuotes : Str → Str
  | [] => []
  | c :: cs =>
    if c = quoteChar then quoteChar :: quoteChar :: escapeQuotes cs
    else c :: escapeQuotes cs

/-- One serialized CSV field. -/
def encodeField (f : Str) : Str :=
  if needsQuote f then quoteChar :: (escapeQuotes f ++ [quoteChar]) else f

/-- One serialized CSV row: comma-separated fields plus the `\r\n`
line terminator of the default `csv` dialect. -/
def encodeRow (fs : List Str) : Str :=
  joinSep [','] (fs.map encodeField) ++ ['\r', '\n']

/-- The file content produced by `write_pass(output_file, rows)`: the
header row followed by one row per record in input order. -/
def write_pass (rows : List PassContent) : Str :=
  encodeRow protonHeaders ++ (rows.map (fun r => encodeRow (toRow r))).flatten

/-- Modelled from the spec: the re-parsing side of the round-trip property
(the repository only writes CSV; reading it back is described by the output
format of §6).  Consume an unquoted field: stop at a delimiter or a line
terminator. -/
def parseUnquoted : Str → Str × Str
  | [] => ([], [])
  | c :: cs =>
    if c = ',' || c = '\r' then ([], c :: cs)
    else
      let p := parseUnquoted cs
      (c :: p.1, p.2)

/-- Modelled from the spec: consume a quoted field after its opening quote;
a doubled quote is a literal quote, a single quote closes the field. -/
def parseQuoted : Str → Str × Str
  | [] => ([], [])
  | c :: cs =>
    if c = quoteChar then
      match cs with
      | [] => ([], [])
      | d :: rest =>
        if d = quoteChar then
          let p := parseQuoted rest
          (quoteChar :: p.1, p.2)
        else ([], cs)
    else
      let p := parseQuoted cs
      (c :: p.1, p.2)

/-- Modelled from the spec: consume one CSV field, quoted or unquoted. -/
def parseField : Str → Str × Str
  | [] => ([], [])
  | c :: cs => if c = quoteChar then parseQuoted cs else parseUnquoted (c :: cs)

/-- Modelled from the spec: consume the fields of one CSV record up to and
including its line terminator; the fuel bounds the number of fields. -/
def parseFieldsFuel : Nat → Str → List Str × Str
  | 0, _ => ([], [])
  | n + 1, s =>
    let fr := parseField s
    match fr.2 with
    | ',' :: r =>
      let p := parseFieldsFuel n r
      (fr.1 :: p.1, p.2)
    | '\r' :: '\n' :: r => ([fr.1], r)
    | _ => ([fr.1], [])

/-- Modelled from the spec: split a CSV file into records; the fuel bounds
the number of records. -/
def parseRecordsFuel : Nat → Str → List (List Str)
  | 0, _ => []
  | n + 1, s =>
    if s = [] then []
    else
      let p := parseFieldsFuel s.length s
      p.1 :: parseRecordsFuel n p.2

/-- Modelled from the spec: re-parse a CSV file into its records.  Every
record consumes at least one character, so `s.length` is enough fuel. -/
def parseRecords (s : Str) : List (List Str) :=
  parseRecordsFuel s.length s

/-- Second definition, following the spec's words for C6: the email value a
single line would contribute ("contains `@`; take text after the first
colon if any, else the whole trimmed line"). -/
def specEmailVal (rawLine : Str) : Option Str :=
  let l := pyStrip rawLine
  if l = [] then none
  else if l.contains '@' then
    some (if l.contains ':' then pyStrip (afterFirstColon l) else l)
  else none

/-- Second definition, following the spec's words for C6/C9: the username
value a single line would contribute (no `@`, a username key word starts
the lowercased line; text after the first colon, trimmed). -/
def specUserVal (rawLine : Str) : Option Str :=
  let l := pyStrip rawLine
  if l = [] then none
  else if l.contains '@' then none
  else if isUserLine l then some (pyStrip (afterFirstColon l))
  else none

/-- Second definition, following the spec's words for C7: the note fragment
a single line contributes (non-blank after trimming, matching neither the
email nor the username rule). -/
def specNoteVal (rawLine : Str) : Option Str :=
  let l := pyStrip rawLine
  if l = [] then none
  else if l.contains '@' then none
  else if isUserLine l then none
  else some l

/-- Last-match-wins accumulator over per-line contributions. -/
def pick (acc : Option Str) (o : Option Str) : Option Str :=
  match o with
  | some v => some v
  | none => acc

/-- What may legally follow an encoded CSV field: nothing, a delimiter, or
the line terminator. -/
def sepStart : Str → Prop
  | [] => True
  | c :: _ => c = ',' ∨ c = '\r'

theorem splitLines_ne_nil (l : Str) : splitLines l ≠ [] := by
  cases l with
  | nil => simp [splitLines]
  | cons c cs =>
    by_cases h : c = '\n'
    · simp [splitLines, h]
    · simp only [splitLines, if_neg h]
      cases splitLines cs <;> simp

theorem splitLines_head (l : Str) :
    (splitLines l).headD [] = l.takeWhile (fun c => c ≠ '\n') := by
  induction l with
  | nil => rfl
  | cons c cs ih =>
    by_cases h : c = '\n'
    · simp [splitLines, h, List.takeWhile]
    · simp only [splitLines, if_neg h, List.takeWhile]
      cases hsc : splitLines cs with
      | nil => exact absurd hsc (splitLines_ne_nil cs)
      | cons l ls =>
        rw [hsc] at ih
        simp only [List.headD] at ih ⊢
        simp [ih, h]

/-- C3: for every non-empty raw content, the `password` field of
`process_pass name raw` is the first newline-delimited line of `raw`,
trimmed of surrounding whitespace, whatever the later lines hold. -/
theorem process_pass_password_first_line (name raw : Str) (h : raw ≠ []) :
    (process_pass name raw).password = pyStrip (raw.takeWhile (fun c => c ≠ '\n')) := by
  simp only [process_pass, if_neg h]
  rw [← splitLines_head]

/-- Witness for C3 at a concrete entry. -/
theorem process_pass_password_first_line_witness :
    (process_pass (str "e") (str "  pw  \nuser: x")).password
      = pyStrip ((str "  pw  \nuser: x").takeWhile (fun c => c ≠ '\n')) :=
  process_pass_password_first_line (str "e") (str "  pw  \nuser: x") (by decide)

/-- C10: `process_pass` is a pure function of its two arguments whose
`name` argument influences only the `name` field: for any two names and
the same raw content, every other field coincides. -/
theorem process_pass_name_influences_only_name (n1 n2 raw : Str) :
    (process_pass n1 raw).name = n1 ∧
    (process_pass n1 raw).password = (process_pass n2 raw).password ∧
    (process_pass n1 raw).url = (process_pass n2 raw).url ∧
    (process_pass n1 raw).email = (process_pass n2 raw).email ∧
    (process_pass n1 raw).username = (process_pass n2 raw).username ∧
    (process_pass n1 raw).note = (process_pass n2 raw).note ∧
    (process_pass n1 raw).totp = (process_pass n2 raw).totp := by
  by_cases h : raw = [] <;> simp [process_pass, h]

theorem entryStep_foldl (entries : List (Str × Option Str)) :
    ∀ acc : List PassContent × Nat,
      (entries.foldl entryStep acc).1.length = acc.1.length + entries.countP readOk ∧
      (entries.foldl entryStep acc).2 = acc.2 + entries.countP readOk := by
  induction entries with
  | nil => simp
  | cons e es ih =>
    intro acc
    rw [List.foldl_cons, List.countP_cons]
    obtain ⟨h1, h2⟩ := ih (entryStep acc e)
    obtain ⟨n, r⟩ := e
    cases r with
    | none =>
      have hro : readOk (n, none) = false := rfl
      rw [h1, h2]
      simp [entryStep, hro]
    | some raw =>
      by_cases hr : raw = []
      · subst hr
        have hro : readOk (n, some []) = false := rfl
        rw [h1, h2]
        simp [entryStep, hro]
      · have hro : readOk (n, some raw) = true := by
          simp [readOk, List.isEmpty_iff, hr]
        rw [h1, h2]
        simp only [entryStep, if_neg hr, hro, List.length_append, List.length_cons,
          List.length_nil, if_true]
        omega

/-- C1 (amended): if K of the T enumerated entries return NON-EMPTY content
from `read_pass`, exactly K records are appended and the summary reports
K/T.  An entry whose read succeeds with the empty string fails the
truthiness guard `if raw_pass_content:` and is treated like a failure, so
the original claim's "including the empty string" does not hold. -/
theorem process_all_entries_counts (entries : List (Str × Option Str)) :
    (process_all_entries entries).1.length = entries.countP readOk ∧
    (process_all_entries entries).2.1 = entries.countP readOk ∧
    (process_all_entries entries).2.2 = entries.length := by
  obtain ⟨h1, h2⟩ := entryStep_foldl entries ([], 0)
  simp only [process_all_entries]
  rw [h1, h2]
  simp

/-- C1 counterexample: a single enumerated entry whose `read_pass` returns
the empty string is a successful read (K = 1 of T = 1), yet no record is
produced and the summary counter stays 0, refuting the claim as stated. -/
theorem process_all_entries_empty_read_cex :
    ([((str "a"), some ([] : Str))].countP (fun e => e.2.isSome) = 1) ∧
    (process_all_entries [((str "a"), some [])]).1.length = 0 ∧
    (process_all_entries [((str "a"), some [])]).2.1 = 0 :=
  ⟨rfl, rfl, rfl⟩

theorem joinPath_length : ∀ (parts : List Str) (h : parts ≠ []),
    (parts.getLast h).length + (parts.length - 1) ≤ (joinPath parts).length
  | [p], _ => by simp [joinPath]
  | p :: q :: r, _ => by
    have ih := joinPath_length (q :: r) (by simp)
    simp only [joinPath, List.getLast_cons_cons, List.length_append,
      List.length_cons, List.length_nil] at ih ⊢
    omega

/-- C2 counterexample: a file literally named ".gpg" directly in the store
root is selected by the walk (its name ends in ".gpg"), yet stripping the
four suffix characters from its relative path leaves the empty identifier. -/
theorem gpgEntryName_dot_gpg_cex :
    ((str ".gpg").isSuffixOf (str ".gpg") = true) ∧ gpgEntryName [str ".gpg"] = [] :=
  ⟨by decide, by decide⟩

/-- C2 (amended): the identifier derived for a selected file — its relative
path with the four suffix characters stripped — is non-empty for every
selected file except one literally named ".gpg" sitting directly in the
store root; equivalently, it is non-empty whenever the file name is longer
than the bare suffix or the file lies in a subdirectory. -/
theorem gpgEntryName_ne_nil (parts : List Str) (h1 : parts ≠ [])
    (h2 : (str ".gpg").isSuffixOf (parts.getLast h1) = true)
    (h3 : 4 < (parts.getLast h1).length ∨ 2 ≤ parts.length) :
    gpgEntryName parts ≠ [] := by
  have hsuf : (str ".gpg") <:+ (parts.getLast h1) := by
    exact List.isSuffixOf_iff_suffix.mp h2
  have hlen4 : 4 ≤ (parts.getLast h1).length := by
    have := hsuf.length_le
    simpa [str] using this
  have hjoin := joinPath_length parts h1
  have hgt : 4 < (joinPath parts).length := by
    rcases h3 with h3 | h3 <;> omega
  simp only [gpgEntryName, ne_eq, List.take_eq_nil_iff]
  push_neg
  constructor
  · omega
  · intro hnil
    rw [hnil] at hgt
    simp at hgt

/-- Witness for C2 (amended) at a concrete selected file. -/
theorem gpgEntryName_ne_nil_witness :
    gpgEntryName [str "web", str "a.gpg"] ≠ [] :=
  gpgEntryName_ne_nil [str "web", str "a.gpg"] (by decide) (by decide) (by decide)

theorem stepLine_eq (st : LineState) (l : Str) :
    stepLine st l =
      { email := pick st.email (specEmailVal l),
        username := pick st.username (specUserVal l),
        noteLines := st.noteLines ++ (specNoteVal l).toList } := by
  by_cases h0 : pyStrip l = []
  · simp [stepLine, specEmailVal, specUserVal, specNoteVal, h0, pick]
  · by_cases h1 : '@' ∈ pyStrip l
    · by_cases h2 : ':' ∈ pyStrip l <;>
        simp [stepLine, specEmailVal, specUserVal, specNoteVal, h0, h1, h2, pick]
    · by_cases h3 : isUserLine (pyStrip l) = true <;>
        simp [stepLine, specEmailVal, specUserVal, specNoteVal, h0, h1, h3, pick]

theorem stepLine_email (st : LineState) (l : Str) :
    (stepLine st l).email = pick st.email (specEmailVal l) := by
  rw [stepLine_eq]

theorem stepLine_username (st : LineState) (l : Str) :
    (stepLine st l).username = pick st.username (specUserVal l) := by
  rw [stepLine_eq]

theorem stepLine_noteLines (st : LineState) (l : Str) :
    (stepLine st l).noteLines = st.noteLines ++ (specNoteVal l).toList := by
  rw [stepLine_eq]

theorem foldl_stepLine (ls : List Str) : ∀ st : LineState,
    (ls.foldl stepLine st).email = (ls.map specEmailVal).foldl pick st.email ∧
    (ls.foldl stepLine st).username = (ls.map specUserVal).foldl pick st.username ∧
    (ls.foldl stepLine st).noteLines = st.noteLines ++ ls.filterMap specNoteVal := by
  induction ls with
  | nil => simp
  | cons l ls ih =>
    intro st
    obtain ⟨h1, h2, h3⟩ := ih (stepLine st l)
    refine ⟨?_, ?_, ?_⟩
    · rw [List.foldl_cons, h1, stepLine_email, List.map_cons, List.foldl_cons]
    · rw [List.foldl_cons, h2, stepLine_username, List.map_cons, List.foldl_cons]
    · rw [List.foldl_cons, h3, stepLine_noteLines, List.filterMap_cons]
      cases hv : specNoteVal l <;> simp [List.append_assoc]

theorem foldl_pick_eq (f : Str → Option Str) (ls : List Str) : ∀ d : Option Str,
    (ls.map f).foldl pick d =
      match (ls.filterMap f).getLast? with
      | some v => some v
      | none => d := by
  induction ls with
  | nil => intro d; simp
  | cons l ls ih =>
    intro d
    rw [List.map_cons, List.foldl_cons, ih (pick d (f l)), List.filterMap_cons]
    cases hf : f l with
    | none => simp [pick]
    | some v =>
      cases hg : ls.filterMap f with
      | nil => simp [pick]
      | cons w ws =>
        simp only [List.getLast?_cons_cons]
        rw [List.getLast?_eq_getLast (w :: ws) (by simp)]

/-- The classifier components of `process_pass` for non-empty raw content,
expressed by the last per-line contribution (or the join of all note
contributions), over the lines after the first. -/
theorem process_pass_components (name raw : Str) (h : raw ≠ []) :
    (process_pass name raw).email =
      (((splitLines raw).drop 1).filterMap specEmailVal).getLast? ∧
    (process_pass name raw).username =
      (((splitLines raw).drop 1).filterMap specUserVal).getLast? ∧
    (process_pass name raw).note =
      (if ((splitLines raw).drop 1).filterMap specNoteVal = [] then none
       else some (joinSep (str " | ")
         (((splitLines raw).drop 1).filterMap specNoteVal))) := by
  obtain ⟨h1, h2, h3⟩ := foldl_stepLine ((splitLines raw).drop 1) ⟨none, none, []⟩
  have he := foldl_pick_eq specEmailVal ((splitLines raw).drop 1) none
  have hu := foldl_pick_eq specUserVal ((splitLines raw).drop 1) none
  simp only [process_pass, if_neg h]
  refine ⟨?_, ?_, ?_⟩
  · rw [h1, he]
    cases (((splitLines raw).drop 1).filterMap specEmailVal).getLast? <;> rfl
  · rw [h2, hu]
    cases (((splitLines raw).drop 1).filterMap specUserVal).getLast? <;> rfl
  · rw [h3]
    simp

theorem specNoteVal_ne_nil (l v : Str) (h : specNoteVal l = some v) : v ≠ [] := by
  by_cases h0 : pyStrip l = []
  · simp [specNoteVal, h0] at h
  · by_cases h1 : '@' ∈ pyStrip l
    · simp [specNoteVal, h0, h1] at h
    · by_cases h2 : isUserLine (pyStrip l) = true
      · simp [specNoteVal, h0, h1, h2] at h
      · simp [specNoteVal, h0, h1, h2] at h
        exact h ▸ h0

theorem joinSep_ne_nil (sep : Str) :
    ∀ xs : List Str, xs ≠ [] → (∀ x ∈ xs, x ≠ []) → joinSep sep xs ≠ []
  | [], h, _ => absurd rfl h
  | [x], _, h2 => by simpa [joinSep] using h2 x (by simp)
  | x :: y :: r, _, h2 => by
    have hx := h2 x (by simp)
    simp [joinSep, hx]

theorem process_pass_note_ne_some_nil (name raw : Str) :
    (process_pass name raw).note ≠ some [] := by
  by_cases h : raw = []
  · subst h
    simp [process_pass]
  · intro hs
    rw [(process_pass_components name raw h).2.2] at hs
    by_cases hq : ((splitLines raw).drop 1).filterMap specNoteVal = []
    · rw [if_pos hq] at hs
      exact Option.noConfusion hs
    · rw [if_neg hq] at hs
      have hj := Option.some.inj hs
      refine joinSep_ne_nil (str " | ") _ hq ?_ hj
      intro x hx
      obtain ⟨a, _, ha⟩ := List.mem_filterMap.mp hx
      exact specNoteVal_ne_nil a x ha

/-- C6: the classifier keeps the value of the LAST matching line, both for
`username` (key words `username:`, `user:`, `login:`, case-insensitive, not
matching the email rule; value = text after the first colon, trimmed) and
for `email`: each field equals the last per-line contribution among the
lines after the first. -/
theorem process_pass_last_match_wins (name raw : Str) (h : raw ≠ []) :
    (process_pass name raw).username =
      (((splitLines raw).drop 1).filterMap specUserVal).getLast? ∧
    (process_pass name raw).email =
      (((splitLines raw).drop 1).filterMap specEmailVal).getLast? :=
  ⟨(process_pass_components name raw h).2.1, (process_pass_components name raw h).1⟩

/-- Witness for C6: line 2 "login: bob" then line 3 "Login: carol" yields
username "carol" (last match wins, case-insensitive key word). -/
theorem process_pass_last_match_wins_witness :
    (process_pass (str "e") (str "pw\nlogin: bob\nLogin: carol")).username
      = some (str "carol") := by
  have h :=
    (process_pass_last_match_wins (str "e") (str "pw\nlogin: bob\nLogin: carol")
      (by decide)).1
  rw [h]
  decide

/-- C7: the `note` field equals the join, with separator " | " and in
original order, of exactly the trimmed lines after the first that are
non-blank and match neither the email nor the username rule, when any
exist, and is unset otherwise; it is never the empty string. -/
theorem process_pass_note_join (name raw : Str) :
    (process_pass name raw).note =
      (if ((splitLines raw).drop 1).filterMap specNoteVal = [] then none
       else some (joinSep (str " | ")
         (((splitLines raw).drop 1).filterMap specNoteVal))) ∧
    (process_pass name raw).note ≠ some [] := by
  refine ⟨?_, process_pass_note_ne_some_nil name raw⟩
  by_cases h : raw = []
  · subst h
    simp [process_pass, splitLines]
  · exact (process_pass_components name raw h).2.2

/-- Witness for C7: two note lines separated by a blank line join to
"note a | note b"; the blank line contributes nothing. -/
theorem process_pass_note_join_witness :
    (process_pass (str "e") (str "pw\nnote a\n\nnote b")).note
      = some (str "note a | note b") := by
  have h := (process_pass_note_join (str "e") (str "pw\nnote a\n\nnote b")).1
  rw [h]
  decide

/-- C9: when the last username-matching line after the first line carries
nothing after its colon (e.g. the bare line "user:"), `username` is SET to
the empty string, and likewise `email` when the last email-matching line
contributes an empty value (e.g. the line "a@b:") — unlike `note`, which
is never the empty string. -/
theorem process_pass_bare_user_key (name raw : Str) :
    ((((splitLines raw).drop 1).filterMap specUserVal).getLast? = some [] →
      (process_pass name raw).username = some []) ∧
    ((((splitLines raw).drop 1).filterMap specEmailVal).getLast? = some [] →
      (process_pass name raw).email = some []) ∧
    (process_pass name raw).note ≠ some [] := by
  refine ⟨?_, ?_, process_pass_note_ne_some_nil name raw⟩
  · intro h
    by_cases hraw : raw = []
    · subst hraw
      simp [splitLines] at h
    · rw [(process_pass_components name raw hraw).2.1, h]
  · intro h
    by_cases hraw : raw = []
    · subst hraw
      simp [splitLines] at h
    · rw [(process_pass_components name raw hraw).1, h]

/-- Witness for C9: the entry "pw\nuser:" gets username `some ""`, and the
entry "pw\na@b:" gets email `some ""`. -/
theorem process_pass_bare_user_key_witness :
    (process_pass (str "e") (str "pw\nuser:")).username = some [] ∧
    (process_pass (str "e") (str "pw\na@b:")).email = some [] :=
  ⟨(process_pass_bare_user_key (str "e") (str "pw\nuser:")).1 (by decide),
   (process_pass_bare_user_key (str "e") (str "pw\na@b:")).2.1 (by decide)⟩

/-- C4: a loop line whose trimmed form contains an `@` is assigned to
`email` (the email check runs before the username check), and leaves
`username` and the note fragments untouched — even when the line also
starts with a username key word. -/
theorem stepLine_email_priority (st : LineState) (l : Str) (h : '@' ∈ pyStrip l) :
    (∃ v, (stepLine st l).email = some v) ∧
    (stepLine st l).username = st.username ∧
    (stepLine st l).noteLines = st.noteLines := by
  have hne : pyStrip l ≠ [] := List.ne_nil_of_mem h
  refine ⟨?_, ?_, ?_⟩
  · rw [stepLine_email]
    have he : specEmailVal l
        = some (if (pyStrip l).contains ':' then pyStrip (afterFirstColon (pyStrip l))
                else pyStrip l) := by
      simp [specEmailVal, hne, h]
    rw [he]
    exact ⟨_, rfl⟩
  · rw [stepLine_username]
    have hu : specUserVal l = none := by simp [specUserVal, hne, h]
    rw [hu]
    rfl
  · rw [stepLine_noteLines]
    have hn : specNoteVal l = none := by simp [specNoteVal, hne, h]
    rw [hn]
    simp

/-- Witness for C4: the line "username: a@b" matches the username key word
yet is classified by the email branch; username and notes stay unchanged. -/
theorem stepLine_email_priority_witness :
    (stepLine ⟨none, none, []⟩ (str "username: a@b")).username = none ∧
    (stepLine ⟨none, none, []⟩ (str "username: a@b")).noteLines = [] :=
  ⟨(stepLine_email_priority ⟨none, none, []⟩ (str "username: a@b") (by decide)).2.1,
   (stepLine_email_priority ⟨none, none, []⟩ (str "username: a@b") (by decide)).2.2⟩

/-- C5: for a loop line whose trimmed form contains `@`: with a colon the
email becomes the text after the FIRST colon, trimmed (even when the colon
follows the `@`); without a colon the whole trimmed line becomes the email. -/
theorem stepLine_email_value (st : LineState) (l : Str) (h : '@' ∈ pyStrip l) :
    (':' ∈ pyStrip l →
      (stepLine st l).email = some (pyStrip (afterFirstColon (pyStrip l)))) ∧
    (':' ∉ pyStrip l → (stepLine st l).email = some (pyStrip l)) := by
  have hne : pyStrip l ≠ [] := List.ne_nil_of_mem h
  constructor <;> intro hc <;> rw [stepLine_email] <;>
    simp [specEmailVal, hne, h, hc, pick]

/-- Witness for C5: the line "user@site.com: backup" (colon after the `@`)
yields email "backup", not the address on the left. -/
theorem stepLine_email_value_witness :
    (stepLine ⟨none, none, []⟩ (str "user@site.com: backup")).email
      = some (str "backup") := by
  have h :=
    (stepLine_email_value ⟨none, none, []⟩ (str "user@site.com: backup")
      (by decide)).1 (by decide)
  rw [h]
  decide

theorem parseUnquoted_encode : ∀ (f rest : Str),
    (∀ c ∈ f, c ≠ ',' ∧ c ≠ '\r') → sepStart rest →
    parseUnquoted (f ++ rest) = (f, rest)
  | [], rest, _, hr => by
    cases rest with
    | nil => rfl
    | cons c cs =>
      rcases hr with h | h <;> simp [parseUnquoted, h]
  | c :: f, rest, hf, hr => by
    have h1 : c ≠ ',' := (hf c (by simp)).1
    have h2 : c ≠ '\r' := (hf c (by simp)).2
    have ih := parseUnquoted_encode f rest (fun x hx => hf x (by simp [hx])) hr
    simp [parseUnquoted, h1, h2, ih]

theorem parseQuoted_encode : ∀ (f rest : Str), sepStart rest →
    parseQuoted (escapeQuotes f ++ (quoteChar :: rest)) = (f, rest)
  | [], rest, hr => by
    cases rest with
    | nil => rfl
    | cons d rest' =>
      have hd : d ≠ quoteChar := by
        rcases hr with h | h <;> subst h <;> decide
      simp [escapeQuotes, parseQuoted, hd]
  | c :: f, rest, hr => by
    have ih := parseQuoted_encode f rest hr
    by_cases hc : c = quoteChar
    · subst hc
      simp [escapeQuotes, parseQuoted, ih]
    · cases hE : escapeQuotes f ++ quoteChar :: rest with
      | nil => simp at hE
      | cons d ds =>
        rw [show escapeQuotes (c :: f) ++ quoteChar :: rest = c :: d :: ds from by
          simp [escapeQuotes, hc, hE]]
        rw [hE] at ih
        simp [parseQuoted, hc, ih]

theorem mem_of_needsQuote_false (f : Str) (h : needsQuote f = false) :
    ∀ c ∈ f, c ≠ ',' ∧ c ≠ quoteChar ∧ c ≠ '\r' ∧ c ≠ '\n' := by
  intro c hc
  simp only [needsQuote, Bool.or_eq_false_iff, List.contains_eq_any_beq,
    List.any_eq_false, beq_iff_eq] at h
  obtain ⟨⟨⟨h1, h2⟩, h3⟩, h4⟩ := h
  exact ⟨fun he => h1 c hc he.symm, fun he => h2 c hc he.symm,
         fun he => h3 c hc he.symm, fun he => h4 c hc he.symm⟩

theorem parseField_encode (f rest : Str) (hr : sepStart rest) :
    parseField (encodeField f ++ rest) = (f, rest) := by
  by_cases hq : needsQuote f = true
  · simp only [encodeField, if_pos hq, List.cons_append]
    have hpf : parseField (quoteChar :: ((escapeQuotes f ++ [quoteChar]) ++ rest))
        = parseQuoted ((escapeQuotes f ++ [quoteChar]) ++ rest) := by
      simp [parseField]
    rw [hpf, List.append_assoc, List.singleton_append]
    exact parseQuoted_encode f rest hr
  · have hq' : needsQuote f = false := by
      revert hq
      cases needsQuote f <;> simp
    have hmem := mem_of_needsQuote_false f hq'
    simp only [encodeField, if_neg hq]
    cases f with
    | nil =>
      cases rest with
      | nil => rfl
      | cons c cs =>
        rcases hr with h | h <;> subst h <;>
          simp [parseField, parseUnquoted,
            show ¬(',' : Char) = quoteChar from by decide,
            show ¬('\r' : Char) = quoteChar from by decide]
    | cons c f' =>
      have hcq : c ≠ quoteChar := (hmem c (by simp)).2.1
      have hU := parseUnquoted_encode (c :: f') rest
        (fun x hx => ⟨(hmem x hx).1, (hmem x hx).2.2.1⟩) hr
      simp only [List.cons_append] at hU ⊢
      simp [parseField, hcq, hU]

theorem parseFieldsFuel_encode : ∀ (fs : List Str) (fuel : Nat) (rest : Str),
    fs ≠ [] → fs.length ≤ fuel →
    parseFieldsFuel fuel (joinSep [','] (fs.map encodeField) ++ ('\r' :: '\n' :: rest))
      = (fs, rest)
  | [], _, _, h, _ => absurd rfl h
  | [f], fuel, rest, _, hlen => by
    cases fuel with
    | zero => exact absurd hlen (by simp)
    | succ n =>
      have hpf := parseField_encode f ('\r' :: '\n' :: rest) (by simp [sepStart])
      simp only [List.map_cons, List.map_nil, joinSep]
      simp [parseFieldsFuel, hpf]
  | f :: g :: fs, fuel, rest, _, hlen => by
    cases fuel with
    | zero => exact absurd hlen (by simp)
    | succ n =>
      have ih := parseFieldsFuel_encode (g :: fs) n rest (by simp)
        (by simpa using Nat.le_of_succ_le_succ hlen)
      have hpf := parseField_encode f
        (',' :: (joinSep [','] ((g :: fs).map encodeField) ++ ('\r' :: '\n' :: rest)))
        (by simp [sepStart])
      have hshape :
          joinSep [','] ((f :: g :: fs).map encodeField) ++ ('\r' :: '\n' :: rest)
            = encodeField f ++
              (',' :: (joinSep [','] ((g :: fs).map encodeField) ++ ('\r' :: '\n' :: rest))) := by
        simp [joinSep, List.append_assoc]
      rw [hshape]
      simp only [parseFieldsFuel]
      rw [hpf]
      simp only [List.map_cons] at ih
      simp [ih]

theorem joinSep_comma_length : ∀ fs : List Str, fs ≠ [] →
    fs.length ≤ (joinSep [','] (fs.map encodeField)).length + 1
  | [], h => absurd rfl h
  | [f], _ => by simp
  | f :: g :: fs, _ => by
    have ih := joinSep_comma_length (g :: fs) (by simp)
    simp only [List.map_cons, joinSep, List.length_append, List.length_cons,
      List.length_nil] at ih ⊢
    omega

theorem rows_length_le : ∀ rs : List (List Str),
    rs.length ≤ ((rs.map encodeRow).flatten).length
  | [] => by simp
  | fs :: rs => by
    have ih := rows_length_le rs
    simp only [List.map_cons, List.flatten_cons, List.length_append, List.length_cons]
    have h1 : 1 ≤ (encodeRow fs).length := by simp [encodeRow]
    omega

theorem parseRecordsFuel_encode : ∀ (rs : List (List Str)) (fuel : Nat),
    (∀ fs ∈ rs, fs ≠ []) → rs.length ≤ fuel →
    parseRecordsFuel fuel ((rs.map encodeRow).flatten) = rs
  | [], fuel, _, _ => by cases fuel <;> simp [parseRecordsFuel]
  | fs :: rs, fuel, hne, hlen => by
    cases fuel with
    | zero => exact absurd hlen (by simp)
    | succ n =>
      have hfs : fs ≠ [] := hne fs (by simp)
      have hshape : ((fs :: rs).map encodeRow).flatten
          = joinSep [','] (fs.map encodeField)
              ++ ('\r' :: '\n' :: (rs.map encodeRow).flatten) := by
        simp [encodeRow, List.append_assoc]
      rw [hshape]
      have hSne : joinSep [','] (fs.map encodeField)
          ++ ('\r' :: '\n' :: (rs.map encodeRow).flatten) ≠ [] := by simp
      have hflen : fs.length ≤ (joinSep [','] (fs.map encodeField)
          ++ ('\r' :: '\n' :: (rs.map encodeRow).flatten)).length := by
        have hj := joinSep_comma_length fs hfs
        simp only [List.length_append, List.length_cons]
        omega
      have hfields := parseFieldsFuel_encode fs
        ((joinSep [','] (fs.map encodeField)
          ++ ('\r' :: '\n' :: (rs.map encodeRow).flatten)).length)
        ((rs.map encodeRow).flatten) hfs hflen
      have ih := parseRecordsFuel_encode rs n (fun x hx => hne x (by simp [hx]))
        (by simpa using Nat.le_of_succ_le_succ hlen)
      simp only [parseRecordsFuel]
      rw [if_neg hSne, hfields]
      simp [ih]

theorem toRow_ne_nil (r : PassContent) : toRow r ≠ [] := by simp [toRow]

/-- C8: serializing any list of records with `write_pass` (header row, one
row per record in input order, CSV quoting as needed) and re-parsing the
file yields exactly the header row followed by one parsed row per record,
in order, whose cells equal the records' field values with unset optional
fields (and the always-absent vault column) read back as the empty string. -/
theorem write_pass_round_trip (rows : List PassContent) :
    parseRecords (write_pass rows) = protonHeaders :: rows.map toRow := by
  have hshape : write_pass rows
      = ((protonHeaders :: rows.map toRow).map encodeRow).flatten := by
    simp only [write_pass, List.map_cons, List.flatten_cons, List.map_map]
    rfl
  rw [parseRecords, hshape]
  refine parseRecordsFuel_encode (protonHeaders :: rows.map toRow) _ ?_ ?_
  · intro fs hfs
    rcases List.mem_cons.mp hfs with h | h
    · subst h
      simp [protonHeaders]
    · obtain ⟨r, _, hr⟩ := List.mem_map.mp h
      exact hr ▸ toRow_ne_nil r
  · exact rows_length_le _

end Pass2Proton
